import Mathlib

/-!
Verification of the pastecat content store (`paste.go`).

The embedding models the store-level code: identifier encoding and the
identifier-to-path mapping (`Id.String`, `Id.Path`, `IdFromString`,
`IdFromPath`), the `FileStore` operations (`Get`, `Put`, `Delete`,
`randomID`, `Recover`, `writeNewFile`), the recovery walk (`walkFunc`) and
the expiry deletion path (`Id.EndLife`).

Machine integers: Go `int64` sizes are modelled as `Nat` (all sizes are
non-negative), times and durations (`time.Time` / `time.Duration`) as `Int`
in a single abstract unit.  The filesystem is an association list from path
(a list of characters) to file contents (a list of bytes); Go maps are
association lists with replace-on-insert semantics.

Three symbols referenced by the store are not among the source files:
`Stats` (the quota tracker), `Header`/`genHeader` (per-entry metadata) and
`SetupPasteDeletion` (the expiry scheduler entry point).  They are modelled
from the specification; each carries a doc comment saying so.
-/

namespace Pastecat

/-- Source constant `idSize = 8`: length of the external (hex) identifier. -/
def idSize : Nat := 8

/-- Source constant `rawIdSize = idSize / 2`: length of the raw identifier in bytes. -/
def rawIdSize : Nat := idSize / 2

/-- Source constant `randTries = 10`: bound on random-identifier generation attempts. -/
def randTries : Nat := 10

/-- The path separator used by `path.Join` and `filepath.Separator`. -/
def sep : Char := '/'

/-- One minute, in the abstract time unit (seconds). -/
def timeMinute : Int := 60

/-- Error values surfaced by the store.  `pasteNotFound` is
`ErrPasteNotFound`, `reachedMax` is `ErrReachedMax`, `noUnusedIDFound` is
`ErrNoUnusedIDFound`; the remaining constructors stand for the distinct
`error` values produced by the filesystem and parsing paths in the code. -/
inductive Err where
  | pasteNotFound
  | reachedMax
  | noUnusedIDFound
  | fileExists
  | openFailed
  | removeFailed
  | invalidId
  | invalidPath
  | readFailed
deriving DecidableEq

/-- A raw identifier: the byte array `[rawIdSize]byte`, as a list of bytes. -/
abbrev ID := List Nat

/-- A well-formed raw identifier: `rawIdSize` bytes, each below 256. -/
def ValidID (id : ID) : Prop := id.length = rawIdSize ∧ ∀ b ∈ id, b < 256

/-- A filesystem path, as the list of its characters. -/
abbrev FPath := List Char

/-- The filesystem: an association list from path to raw file contents. -/
abbrev FS := List (FPath × List Nat)

/-- Association-list lookup; models reading a Go map (first matching key wins,
and inserts below keep keys unique). -/
def lookupA {α : Type} {β : Type} [DecidableEq α] : List (α × β) → α → Option β
  | [], _ => none
  | (k, v) :: rest, k' => if k = k' then some v else lookupA rest k'

/-- Association-list key removal; models Go `delete(m, k)` (all occurrences of
the key are dropped, which on unique-key lists removes exactly the entry). -/
def eraseA {α : Type} {β : Type} [DecidableEq α] : List (α × β) → α → List (α × β)
  | [], _ => []
  | (k, v) :: rest, k' => if k = k' then eraseA rest k' else (k, v) :: eraseA rest k'

/-- Association-list insert with replacement; models Go `m[k] = v`. -/
def insertA {α : Type} {β : Type} [DecidableEq α] (l : List (α × β)) (k : α) (v : β) :
    List (α × β) :=
  (k, v) :: eraseA l k

theorem lookupA_insertA_self {α β : Type} [DecidableEq α] (l : List (α × β)) (k : α) (v : β) :
    lookupA (insertA l k v) k = some v := by
  simp [insertA, lookupA]

theorem lookupA_eraseA_self {α β : Type} [DecidableEq α] (l : List (α × β)) (k : α) :
    lookupA (eraseA l k) k = none := by
  induction l with
  | nil => rfl
  | cons p rest ih =>
    obtain ⟨k', v⟩ := p
    by_cases h : k' = k
    · simpa [eraseA, h] using ih
    · simpa [eraseA, lookupA, h] using ih

theorem lookupA_eraseA_ne {α β : Type} [DecidableEq α] (l : List (α × β)) (k k' : α)
    (h : k' ≠ k) : lookupA (eraseA l k) k' = lookupA l k' :=
  by
  have hkk : k ≠ k' := fun hc => h hc.symm
  induction l with
  | nil => rfl
  | cons p rest ih =>
    obtain ⟨a, v⟩ := p
    by_cases ha : a = k
    · simp [eraseA, ha, lookupA, hkk, ih]
    · by_cases ha' : a = k'
      · simp [eraseA, ha, lookupA, ha', h]
      · simp [eraseA, ha, lookupA, ha', ih]

theorem lookupA_insertA_ne {α β : Type} [DecidableEq α] (l : List (α × β)) (k k' : α)
    (v : β) (h : k' ≠ k) : lookupA (insertA l k v) k' = lookupA l k' := by
  have : k ≠ k' := fun hc => h hc.symm
  simp [insertA, lookupA, this, lookupA_eraseA_ne l k k' h]

theorem eraseA_of_lookupA_none {α β : Type} [DecidableEq α] (l : List (α × β)) (k : α)
    (h : lookupA l k = none) : eraseA l k = l := by
  induction l with
  | nil => rfl
  | cons p rest ih =>
    obtain ⟨a, v⟩ := p
    by_cases ha : a = k
    · simp [lookupA, ha] at h
    · simp [lookupA, ha] at h
      simp [eraseA, ha, ih h]

/-! ## Hexadecimal encoding (Go `encoding/hex`) -/

/-- One hexadecimal digit character, as produced by Go `encoding/hex`
(digit table `0123456789abcdef`). -/
def hexDigitChar (n : Nat) : Char :=
  if n < 10 then Char.ofNat (48 + n) else Char.ofNat (87 + n)

/-- The two hex characters encoding one byte. -/
def byteToHex (b : Nat) : List Char := [hexDigitChar (b / 16), hexDigitChar (b % 16)]

/-- Embeds `hex.EncodeToString` on a byte slice. -/
def hexEncode : List Nat → List Char
  | [] => []
  | b :: bs => byteToHex b ++ hexEncode bs

/-- The value of one hexadecimal character, as accepted by Go
`hex.DecodeString` (digits, lowercase and uppercase letters). -/
def hexCharVal (c : Char) : Option Nat :=
  if 48 ≤ c.toNat ∧ c.toNat ≤ 57 then some (c.toNat - 48)
  else if 97 ≤ c.toNat ∧ c.toNat ≤ 102 then some (c.toNat - 87)
  else if 65 ≤ c.toNat ∧ c.toNat ≤ 70 then some (c.toNat - 55)
  else none

/-- Embeds `hex.DecodeString`: fails on odd length or a non-hex character. -/
def hexDecode : List Char → Option (List Nat)
  | [] => some []
  | [_] => none
  | c1 :: c2 :: rest =>
    match hexCharVal c1, hexCharVal c2, hexDecode rest with
    | some hi, some lo, some bs => some ((16 * hi + lo) :: bs)
    | _, _, _ => none

theorem hexCharVal_hexDigitChar (n : Fin 16) :
    hexCharVal (hexDigitChar n.val) = some n.val := by
  revert n
  decide

theorem hexDigitChar_ne_sep (n : Fin 16) : hexDigitChar n.val ≠ sep := by
  revert n
  decide

theorem hexDecode_hexEncode (bs : List Nat) (h : ∀ b ∈ bs, b < 256) :
    hexDecode (hexEncode bs) = some bs := by
  induction bs with
  | nil => rfl
  | cons b bs ih =>
    have hb : b < 256 := h b (List.mem_cons_self b bs)
    have hdiv : b / 16 < 16 := by omega
    have hmod : b % 16 < 16 := by omega
    have h1 : hexCharVal (hexDigitChar (b / 16)) = some (b / 16) :=
      hexCharVal_hexDigitChar ⟨b / 16, hdiv⟩
    have h2 : hexCharVal (hexDigitChar (b % 16)) = some (b % 16) :=
      hexCharVal_hexDigitChar ⟨b % 16, hmod⟩
    have ih' : hexDecode (hexEncode bs) = some bs :=
      ih (fun x hx => h x (List.mem_cons_of_mem b hx))
    show hexDecode (hexDigitChar (b / 16) :: hexDigitChar (b % 16) :: hexEncode bs)
        = some (b :: bs)
    simp only [hexDecode, h1, h2, ih']
    have : 16 * (b / 16) + b % 16 = b := by omega
    rw [this]

theorem hexEncode_length (bs : List Nat) : (hexEncode bs).length = 2 * bs.length := by
  induction bs with
  | nil => rfl
  | cons b bs ih =>
    simp [hexEncode, byteToHex, ih]
    omega

theorem sep_not_mem_byteToHex (b : Nat) (hb : b < 256) : sep ∉ byteToHex b := by
  have hdiv : b / 16 < 16 := by omega
  have hmod : b % 16 < 16 := by omega
  have h1 := hexDigitChar_ne_sep ⟨b / 16, hdiv⟩
  have h2 := hexDigitChar_ne_sep ⟨b % 16, hmod⟩
  simp [byteToHex]
  exact ⟨fun hc => h1 hc.symm, fun hc => h2 hc.symm⟩

theorem sep_not_mem_hexEncode (bs : List Nat) (h : ∀ b ∈ bs, b < 256) :
    sep ∉ hexEncode bs := by
  induction bs with
  | nil => simp [hexEncode]
  | cons b bs ih =>
    have hb : b < 256 := h b (List.mem_cons_self b bs)
    have ih' := ih (fun x hx => h x (List.mem_cons_of_mem b hx))
    simp only [hexEncode, List.mem_append]
    rintro (hc | hc)
    · exact sep_not_mem_byteToHex b hb hc
    · exact ih' hc

/-! ## Splitting a path (Go `strings.Split` on the separator) -/

/-- Embeds `strings.Split` with a single-character separator. -/
def splitOnChar (c : Char) : List Char → List (List Char)
  | [] => [[]]
  | a :: rest =>
    if a = c then [] :: splitOnChar c rest
    else
      match splitOnChar c rest with
      | [] => [[a]]
      | p :: ps => (a :: p) :: ps

theorem splitOnChar_ne_nil (c : Char) (l : List Char) : splitOnChar c l ≠ [] := by
  cases l with
  | nil => simp [splitOnChar]
  | cons a rest =>
    by_cases h : a = c
    · simp [splitOnChar, h]
    · simp only [splitOnChar, h, if_false]
      cases splitOnChar c rest <;> simp

theorem splitOnChar_of_not_mem (c : Char) (l : List Char) (h : c ∉ l) :
    splitOnChar c l = [l] := by
  induction l with
  | nil => rfl
  | cons a rest ih =>
    have ha : a ≠ c := fun hc => h (by simp [hc])
    have hrest : c ∉ rest := fun hc => h (List.mem_cons_of_mem a hc)
    simp [splitOnChar, ha, ih hrest]

theorem splitOnChar_append (c : Char) (a b : List Char) (h : c ∉ a) :
    splitOnChar c (a ++ c :: b) = a :: splitOnChar c b := by
  induction a with
  | nil => simp [splitOnChar]
  | cons x xs ih =>
    have hx : x ≠ c := fun hc => h (by simp [hc])
    have hxs : c ∉ xs := fun hc => h (List.mem_cons_of_mem x hc)
    simp only [List.cons_append, splitOnChar, hx, if_false, List.append_eq, ih hxs]

/-! ## Identifiers (`Id.String`, `Id.Path`, `IdFromString`, `IdFromPath`) -/

/-- Embeds `Id.String`: the lowercase-hex rendering of the identifier. -/
def Id.String (id : ID) : List Char := hexEncode id

/-- Embeds `Id.Path`: hex-encode the identifier (`hexId := id.String()`) and
join the first two hex characters (first byte) with the remaining characters:
`path.Join(hexId[0:2], hexId[2:])`.  On two nonempty, already-clean relative
components `path.Join` is concatenation with a single separator.
`FileStore.Put` inlines the same expression for `pastePath`. -/
def Id.Path (id : ID) : FPath :=
  (Id.String id).take 2 ++ sep :: (Id.String id).drop 2

/-- Embeds `IdFromString`: the hex string must have length `idSize`, decode
without error, and yield `rawIdSize` bytes. -/
def IdFromString (hexId : List Char) : Except Err ID :=
  if hexId.length ≠ idSize then .error .invalidId
  else
    match hexDecode hexId with
    | none => .error .invalidId
    | some b => if b.length ≠ rawIdSize then .error .invalidId else .ok b

/-- Embeds `IdFromPath`: split on the path separator, require exactly two
components, and decode their concatenation. -/
def IdFromPath (idPath : FPath) : Except Err ID :=
  match splitOnChar sep idPath with
  | [p0, p1] => IdFromString (p0 ++ p1)
  | _ => .error .invalidPath

theorem IdFromString_hexEncode (id : ID) (h : ValidID id) :
    IdFromString (hexEncode id) = .ok id := by
  obtain ⟨hlen, hbytes⟩ := h
  have hlen8 : (hexEncode id).length = idSize := by
    rw [hexEncode_length, hlen]
    decide
  have hdec : hexDecode (hexEncode id) = some id := hexDecode_hexEncode id hbytes
  simp [IdFromString, hlen8, hdec, hlen]

theorem take_append_drop_path (id : ID) :
    (Id.String id).take 2 ++ (Id.String id).drop 2 = hexEncode id := by
  rw [List.take_append_drop]
  rfl

theorem splitOnChar_Id_Path (id : ID) (h : ValidID id) :
    splitOnChar sep (Id.Path id) = [(Id.String id).take 2, (Id.String id).drop 2] := by
  have hsep : sep ∉ hexEncode id := sep_not_mem_hexEncode id h.2
  have hsep1 : sep ∉ (Id.String id).take 2 := by
    intro hc
    exact hsep (List.mem_of_mem_take hc)
  have hsep2 : sep ∉ (Id.String id).drop 2 := by
    intro hc
    exact hsep (List.mem_of_mem_drop hc)
  unfold Id.Path
  rw [splitOnChar_append sep _ _ hsep1, splitOnChar_of_not_mem sep _ hsep2]

theorem IdFromString_take_drop (id : ID) (h : ValidID id) :
    IdFromString ((Id.String id).take 2 ++ (Id.String id).drop 2) = .ok id := by
  rw [take_append_drop_path id]
  exact IdFromString_hexEncode id h

theorem IdFromPath_Path (id : ID) (h : ValidID id) :
    IdFromPath (Id.Path id) = .ok id := by
  unfold IdFromPath
  rw [splitOnChar_Id_Path id h]
  exact IdFromString_take_drop id h

/-! ## The quota tracker and entry metadata (modelled from the spec) -/

/-- Modelled from the spec: the `Stats` quota tracker type is used by
`FileStore` (`hasSpaceFor`, `makeSpaceFor`, `freeSpace`) but its definition
is not among the source files.  Spec §4.2: a running total of bytes
currently stored and a process-wide configured maximum. -/
structure Stats where
  maxSize : Nat
  currSize : Nat
deriving DecidableEq

/-- Modelled from the spec (§4.2): returns whether admitting `size`
additional bytes keeps the running total at or below the maximum; a pure
predicate with no side effect. -/
def Stats.hasSpaceFor (st : Stats) (size : Nat) : Bool :=
  decide (st.currSize + size ≤ st.maxSize)

/-- Modelled from the spec (§4.2): reserve `size` bytes, adjusting the
running total on admission. -/
def Stats.makeSpaceFor (st : Stats) (size : Nat) : Stats :=
  { st with currSize := st.currSize + size }

/-- Modelled from the spec (§4.2): release `size` bytes on removal.  The
total must never go negative (releasing more than the total would be a
programming-invariant violation); on `Nat` the subtraction truncates at 0. -/
def Stats.freeSpace (st : Stats) (size : Nat) : Stats :=
  { st with currSize := st.currSize - size }

/-- Modelled from the spec: the `Header` entry-metadata type returned by
`genHeader` is not among the source files.  Spec §3 (Entry): content size in
bytes and the creation/modification timestamp; only `Size` is consumed by
the embedded store operations (`FileStore.Delete`). -/
structure Header where
  Size : Nat
  ModTime : Int
deriving DecidableEq

/-- Modelled from the spec: `genHeader` builds the entry metadata from the
identifier, the timestamp and the size; not among the source files. -/
def genHeader (_ : ID) (modTime : Int) (size : Nat) : Header :=
  { Size := size, ModTime := modTime }

/-! ## The `FileStore` -/

/-- Embeds `fileCache`: one in-memory index entry.  The Go struct holds a
`sync.WaitGroup` (`reading`) by value; `wgStored` is the counter of the
wait group value stored in the map.  Go map indexing returns a copy of the
struct, so `Get`'s `cached.reading.Add(1)` and `Delete`'s
`cached.reading.Wait()` act on private copies and never change `wgStored`. -/
structure FileCache where
  wgStored : Nat
  header : Header
  path : FPath
deriving DecidableEq

/-- Embeds `FileStore`: the in-memory index (`cache`), the quota state
(`stats`) and, for the model, the backing filesystem rooted at the store's
data directory.  The `sync.RWMutex` serialises operations; the model makes
each operation one atomic step. -/
structure FileStore where
  cache : List (ID × FileCache)
  stats : Stats
  fs : FS
deriving DecidableEq

/-- Embeds `FileContent`, the read handle returned by `Get`: the open file
(represented by its path) and the reader guard it must release on `Close`.
`readingCopy` is the counter of the wait-group copy the handle points to:
`Get` copied the map entry and did `Add(1)` on that copy. -/
structure FileContent where
  path : FPath
  readingCopy : Nat
deriving DecidableEq

/-- Embeds `FileContent.Close`: closes the file and does `Done()` on the
wait-group copy the handle holds; the map's stored counter is unaffected. -/
def FileContent.Close (c : FileContent) : FileContent :=
  { c with readingCopy := c.readingCopy - 1 }

/-- Reading the handle to the end streams the bytes of the backing file. -/
def FileContent.readAll (fs : FS) (c : FileContent) : Option (List Nat) :=
  lookupA fs c.path

/-- Embeds `newFileStore` on a fresh data directory: empty index, zero
bytes stored, and the configured maximum. -/
def newFileStore (maxSize : Nat) : FileStore :=
  { cache := [], stats := { maxSize := maxSize, currSize := 0 }, fs := [] }

/-- Embeds `FileStore.Get`: look the identifier up in the index (absent ⇒
`ErrPasteNotFound`), open the backing file (`os.Open` fails if it is gone),
increment the reader guard — on a copy of the map entry, see `FileCache` —
and return the handle and the header.  The index is not mutated. -/
def FileStore.Get (s : FileStore) (id : ID) : Except Err (FileContent × Header) :=
  match lookupA s.cache id with
  | none => .error .pasteNotFound
  | some cached =>
    match lookupA s.fs cached.path with
    | none => .error .openFailed
    | some _ => .ok ({ path := cached.path, readingCopy := cached.wgStored + 1 },
                     cached.header)

/-- Embeds `writeNewFile`: exclusive create (`O_WRONLY|O_CREATE|O_EXCL`) —
fails if the path already exists, otherwise the file holds exactly the
data.  Device-level write failures are outside the model. -/
def writeNewFile (fs : FS) (filename : FPath) (data : List Nat) : Except Err FS :=
  match lookupA fs filename with
  | some _ => .error .fileExists
  | none => .ok (insertA fs filename data)

/-- Helper for `FileStore.randomID`: the remaining tries of the generation
loop, drawing candidate `rand t` at attempt `t` and checking it against the
current index. -/
def randomIDFrom (cache : List (ID × FileCache)) (rand : Nat → ID) :
    Nat → Nat → Except Err ID
  | _, 0 => .error .noUnusedIDFound
  | t, fuel + 1 =>
    match lookupA cache (rand t) with
    | none => .ok (rand t)
    | some _ => randomIDFrom cache rand (t + 1) fuel

/-- Embeds `FileStore.randomID`: up to `randTries` draws from the random
source (modelled as the stream `rand` of successful draws), each checked
against the current index; `ErrNoUnusedIDFound` if every draw is in use. -/
def FileStore.randomID (s : FileStore) (rand : Nat → ID) : Except Err ID :=
  randomIDFrom s.cache rand 0 randTries

/-- Embeds `FileStore.Put`: reject with `ErrReachedMax` while the quota
tracker denies space; generate an identifier; write the bytes to the path
derived from it with exclusive create; then reserve the quota and insert
the index entry (with a zero-valued reader wait group).  Every failure
returns before any of the state is mutated. -/
def FileStore.Put (s : FileStore) (rand : Nat → ID) (now : Int) (content : List Nat) :
    Except Err ID × FileStore :=
  let size := content.length
  if !(s.stats.hasSpaceFor size) then (.error .reachedMax, s)
  else
    match s.randomID rand with
    | .error e => (.error e, s)
    | .ok id =>
      let pastePath := Id.Path id
      match writeNewFile s.fs pastePath content with
      | .error e => (.error e, s)
      | .ok fs' =>
        (.ok id,
         { cache := insertA s.cache id
             { wgStored := 0, header := genHeader id now size, path := pastePath },
           stats := s.stats.makeSpaceFor size,
           fs := fs' })

/-- Embeds `FileStore.Delete`: absent ⇒ `ErrPasteNotFound`; otherwise remove
the identifier from the index and release its quota, then wait on the
reader guard (`cached.reading.Wait()` — on a copy whose counter is
`wgStored`, see `FileCache`; the model's `Delete` is the behaviour when that
counter is 0, which `wgStored_always_zero` below shows is every reachable
state), and finally unlink the backing file, surfacing `os.Remove`'s error
(modelled as the file being already gone). -/
def FileStore.Delete (s : FileStore) (id : ID) : Except Err Unit × FileStore :=
  match lookupA s.cache id with
  | none => (.error .pasteNotFound, s)
  | some cached =>
    let s' : FileStore :=
      { cache := eraseA s.cache id,
        stats := s.stats.freeSpace cached.header.Size,
        fs := s.fs }
    match lookupA s'.fs cached.path with
    | none => (.error .removeFailed, s')
    | some _ => (.ok (), { s' with fs := eraseA s'.fs cached.path })

/-- The counter of the wait-group copy `Delete` waits on for `id`: Go's
`cached, e := s.cache[id]` copies the map entry, so `cached.reading.Wait()`
observes exactly the stored counter, not the live readers. -/
def deleteWaitObserved (s : FileStore) (id : ID) : Option Nat :=
  (lookupA s.cache id).map (fun c => c.wgStored)

/-! ## Expiry scheduling and recovery (`SetupPasteDeletion`, `FileStore.Recover`) -/

/-- Modelled from the spec: `SetupPasteDeletion` is invoked by
`FileStore.Recover` but is not among the source files.  Spec §4.4/§4.5: it
arms a one-shot deferred deletion after the given duration, and a zero
configured lifetime means entries never expire, so recovery then schedules
no deletion.  Modelled as the list of armed (identifier, delay) pairs. -/
def SetupPasteDeletion (lifeTime : Int) (id : ID) (after : Int) : List (ID × Int) :=
  if lifeTime = 0 then [] else [(id, after)]

deriving instance DecidableEq for Except

/-- The outcome of one `FileStore.Recover` walk step: the returned error (if
any), the store afterwards, and the deletions armed by the step. -/
structure RecoverOut where
  res : Except Err Unit
  store : FileStore
  scheduled : List (ID × Int)
deriving DecidableEq

/-- Embeds `FileStore.Recover`, the `filepath.Walk` callback run once per
on-disk entry at startup: propagate walk errors, skip directories, invert
the path to an identifier (exactly two components whose concatenation
decodes), and compute the death time from the file's modification time.
With a positive lifetime an already-dead file is removed on the spot
(surfacing `os.Remove`'s error); otherwise the entry must fit the quota
(`ErrReachedMax` aborts recovery), is re-admitted, inserted into the index,
and its deletion scheduled for `deathTime - startTime`. -/
def FileStore.Recover (lifeTime startTime : Int) (s : FileStore)
    (pastePath : FPath) (isDir : Bool) (modTime : Int) (size : Nat)
    (walkErr : Option Err) : RecoverOut :=
  match walkErr with
  | some e => ⟨.error e, s, []⟩
  | none =>
    if isDir then ⟨.ok (), s, []⟩
    else
      match splitOnChar sep pastePath with
      | [p0, p1] =>
        match IdFromString (p0 ++ p1) with
        | .error e => ⟨.error e, s, []⟩
        | .ok id =>
          let deathTime := modTime + lifeTime
          if 0 < lifeTime ∧ deathTime < startTime then
            match lookupA s.fs pastePath with
            | none => ⟨.error .removeFailed, s, []⟩
            | some _ => ⟨.ok (), { s with fs := eraseA s.fs pastePath }, []⟩
          else if !(s.stats.hasSpaceFor size) then ⟨.error .reachedMax, s, []⟩
          else
            ⟨.ok (),
             { cache := insertA s.cache id
                 { wgStored := 0, header := genHeader id modTime size, path := pastePath },
               stats := s.stats.makeSpaceFor size,
               fs := s.fs },
             SetupPasteDeletion lifeTime id (deathTime - startTime)⟩
      | _ => ⟨.error .invalidPath, s, []⟩

/-! ## The global-index variant (`PasteInfo`, `Id.EndLife`, `walkFunc`) -/

/-- Embeds `PasteInfo`, the per-paste metadata of the global `pastes` map.
The `Etag` string `"%d-%s"` is kept structured as the timestamp and the
identifier; `Path` is declared in the source but never assigned. -/
structure PasteInfo where
  Path : FPath
  EtagTime : Int
  EtagId : ID
  ContentType : List Char
  ModTime : Int
deriving DecidableEq

/-- Embeds `Id.GenPasteInfo`: metadata from the modification time and the
leading bytes.  `http.DetectContentType` is Go standard library, passed in
as `detect`; the `application/octet-stream` fallback is remapped to plain
text as in the source. -/
def Id.GenPasteInfo (detect : List Nat → List Char) (id : ID) (modTime : Int)
    (head : List Nat) : PasteInfo :=
  let ct := detect head
  { Path := [],
    EtagTime := modTime,
    EtagId := id,
    ContentType :=
      if ct = "application/octet-stream".toList then "text-plain; charset=utf-8".toList else ct,
    ModTime := modTime }

/-- Embeds `Id.EndLife`: try to unlink the backing file (failure modelled as
the file being already gone); on success the identifier is also removed
from the `pastes` index; on failure the index is left unchanged and
`EndLifeAfter(2 * time.Minute)` arms a retry, returned as the third
component. -/
def Id.EndLife (pastes : List (ID × PasteInfo)) (fs : FS) (id : ID) :
    List (ID × PasteInfo) × FS × List (ID × Int) :=
  match lookupA fs (Id.Path id) with
  | some _ => (eraseA pastes id, eraseA fs (Id.Path id), [])
  | none => (pastes, fs, [(id, 2 * timeMinute)])

/-- The buffer `walkFunc` reads the file head into: `make([]byte, 512)`
filled by one `Read` call, so a shorter file leaves trailing zero bytes in
the buffer passed to `GenPasteInfo`. -/
def readBuf512 (data : List Nat) : List Nat :=
  data.take 512 ++ List.replicate (512 - data.length) 0

/-- The outcome of one `walkFunc` step: the returned error (if any), the
`pastes` index and filesystem afterwards, and the deletions armed (either
the retry from an immediate `EndLife` or the scheduled expiry). -/
structure WalkOut where
  res : Except Err Unit
  pastes : List (ID × PasteInfo)
  fs : FS
  scheduled : List (ID × Int)
deriving DecidableEq

/-- Embeds `walkFunc`, the recovery callback of the global-index variant:
propagate walk errors, skip directories, invert the path (failure is
fatal), and compute the death time.  A file already past it is ended via
`go id.EndLife()` (asynchronous in the source; modelled by its effect on
completion).  Otherwise the head of the file is read (a failing read — an
empty file — aborts recovery), the remaining life is the death time minus
now, capped at the configured lifetime, the entry is indexed with metadata
from the file, and `EndLifeAfter(lifeLeft)` arms its expiry. -/
def walkFunc (detect : List Nat → List Char) (lifeTime now : Int)
    (pastes : List (ID × PasteInfo)) (fs : FS)
    (filePath : FPath) (isDir : Bool) (modTime : Int)
    (walkErr : Option Err) : WalkOut :=
  match walkErr with
  | some e => ⟨.error e, pastes, fs, []⟩
  | none =>
    if isDir then ⟨.ok (), pastes, fs, []⟩
    else
      match IdFromPath filePath with
      | .error _ => ⟨.error .invalidId, pastes, fs, []⟩
      | .ok id =>
        let deathTime := modTime + lifeTime
        if deathTime < now then
          match Id.EndLife pastes fs id with
          | (pastes', fs', retries) => ⟨.ok (), pastes', fs', retries⟩
        else
          match lookupA fs filePath with
          | none => ⟨.error .openFailed, pastes, fs, []⟩
          | some data =>
            if data.length = 0 then ⟨.error .readFailed, pastes, fs, []⟩
            else
              let lifeLeft := if now + lifeTime < deathTime then lifeTime else deathTime - now
              ⟨.ok (),
               insertA pastes id (Id.GenPasteInfo detect id modTime (readBuf512 data)),
               fs, [(id, lifeLeft)]⟩

/-! ## Operation sequences over the store -/

/-- One mutating store operation, for stating state invariants over
arbitrary operation sequences. -/
inductive StoreOp where
  | put (rand : Nat → ID) (now : Int) (content : List Nat)
  | del (id : ID)

/-- Apply one operation, keeping the post-state whether or not the
operation returned an error. -/
def applyOp (s : FileStore) : StoreOp → FileStore
  | .put rand now content => (FileStore.Put s rand now content).2
  | .del id => (FileStore.Delete s id).2

/-- Apply a sequence of operations in order. -/
def applyOps (s : FileStore) (ops : List StoreOp) : FileStore :=
  ops.foldl applyOp s

/-- The total size of all entries currently in the index. -/
def sumSizes (cache : List (ID × FileCache)) : Nat :=
  (cache.map (fun p => p.2.header.Size)).sum

/-- The keys of the index are pairwise distinct (Go map well-formedness). -/
def NodupKeys {α β : Type} (l : List (α × β)) : Prop :=
  (l.map Prod.fst).Nodup

/-! ## Association-list facts used by the invariant proofs -/

theorem lookupA_none_of_not_mem_keys {α β : Type} [DecidableEq α]
    (l : List (α × β)) (k : α) (h : k ∉ l.map Prod.fst) : lookupA l k = none := by
  induction l with
  | nil => rfl
  | cons p rest ih =>
    obtain ⟨a, v⟩ := p
    have ha : a ≠ k := fun hc => h (by simp [hc])
    have hrest : k ∉ rest.map Prod.fst := fun hc => h (by simp [hc])
    simp [lookupA, ha, ih hrest]

theorem not_mem_keys_of_lookupA_none {α β : Type} [DecidableEq α]
    (l : List (α × β)) (k : α) (h : lookupA l k = none) : k ∉ l.map Prod.fst := by
  induction l with
  | nil => simp
  | cons p rest ih =>
    obtain ⟨a, v⟩ := p
    by_cases ha : a = k
    · simp [lookupA, ha] at h
    · simp [lookupA, ha] at h
      intro hmem
      rw [List.map_cons, List.mem_cons] at hmem
      rcases hmem with hc | hc
      · exact ha hc.symm
      · exact ih h hc

theorem eraseA_sublist {α β : Type} [DecidableEq α] (l : List (α × β)) (k : α) :
    (eraseA l k).Sublist l := by
  induction l with
  | nil => simp [eraseA]
  | cons p rest ih =>
    obtain ⟨a, v⟩ := p
    by_cases ha : a = k
    · simpa [eraseA, ha] using ih.cons (a, v)
    · simpa [eraseA, ha] using ih.cons₂ (a, v)

theorem nodupKeys_eraseA {α β : Type} [DecidableEq α] (l : List (α × β)) (k : α)
    (h : NodupKeys l) : NodupKeys (eraseA l k) :=
  ((eraseA_sublist l k).map Prod.fst).nodup h

theorem nodupKeys_insertA {α β : Type} [DecidableEq α] (l : List (α × β)) (k : α) (v : β)
    (h : NodupKeys l) : NodupKeys (insertA l k v) := by
  unfold NodupKeys insertA
  rw [List.map_cons, List.nodup_cons]
  exact ⟨not_mem_keys_of_lookupA_none _ _ (lookupA_eraseA_self l k), nodupKeys_eraseA l k h⟩

theorem lookupA_of_lookupA_eraseA {α β : Type} [DecidableEq α]
    (l : List (α × β)) (k x : α) (v : β) (h : lookupA (eraseA l k) x = some v) :
    lookupA l x = some v := by
  by_cases hx : x = k
  · rw [hx, lookupA_eraseA_self] at h
    cases h
  · rwa [lookupA_eraseA_ne l k x hx] at h

theorem sumSizes_cons (p : ID × FileCache) (l : List (ID × FileCache)) :
    sumSizes (p :: l) = p.2.header.Size + sumSizes l := by
  simp [sumSizes]

theorem sumSizes_eraseA_of_lookupA (c : List (ID × FileCache)) (id : ID) (v : FileCache)
    (hn : NodupKeys c) (h : lookupA c id = some v) :
    sumSizes c = v.header.Size + sumSizes (eraseA c id) := by
  induction c with
  | nil => cases h
  | cons p rest ih =>
    obtain ⟨a, w⟩ := p
    have hn' : NodupKeys rest := by
      have := hn
      unfold NodupKeys at this ⊢
      rw [List.map_cons, List.nodup_cons] at this
      exact this.2
    by_cases ha : a = id
    · have hw : w = v := by
        simpa [lookupA, ha] using h
      have hnotin : a ∉ rest.map Prod.fst := by
        have := hn
        unfold NodupKeys at this
        rw [List.map_cons, List.nodup_cons] at this
        exact this.1
      have hrest : lookupA rest id = none := by
        rw [← ha]
        exact lookupA_none_of_not_mem_keys rest a hnotin
      rw [show eraseA ((a, w) :: rest) id = eraseA rest id by simp [eraseA, ha],
        eraseA_of_lookupA_none rest id hrest, sumSizes_cons, hw]
    · have h' : lookupA rest id = some v := by
        simpa [lookupA, ha] using h
      rw [show eraseA ((a, w) :: rest) id = (a, w) :: eraseA rest id by simp [eraseA, ha],
        sumSizes_cons, sumSizes_cons, ih hn' h']
      omega

/-! ## Branch characterisations of the store operations -/

theorem writeNewFile_ok (fs : FS) (p : FPath) (data : List Nat) (fs' : FS)
    (h : writeNewFile fs p data = .ok fs') :
    lookupA fs p = none ∧ fs' = insertA fs p data := by
  unfold writeNewFile at h
  split at h
  · cases h
  · rename_i hnone
    rw [Except.ok.injEq] at h
    exact ⟨hnone, h.symm⟩

theorem randomIDFrom_ok_not_mem (cache : List (ID × FileCache)) (rand : Nat → ID) :
    ∀ fuel t id, randomIDFrom cache rand t fuel = .ok id → lookupA cache id = none := by
  intro fuel
  induction fuel with
  | zero =>
    intro t id h
    cases h
  | succ n ih =>
    intro t id h
    unfold randomIDFrom at h
    split at h
    · rename_i hc
      rw [Except.ok.injEq] at h
      rw [← h]
      exact hc
    · exact ih _ _ h

theorem randomID_ok_not_mem (s : FileStore) (rand : Nat → ID) (id : ID)
    (h : s.randomID rand = .ok id) : lookupA s.cache id = none :=
  randomIDFrom_ok_not_mem s.cache rand randTries 0 id h

theorem randomIDFrom_congr (cache : List (ID × FileCache)) (rand rand' : Nat → ID) :
    ∀ fuel t, (∀ i, t ≤ i → i < t + fuel → rand i = rand' i) →
      randomIDFrom cache rand t fuel = randomIDFrom cache rand' t fuel := by
  intro fuel
  induction fuel with
  | zero => intro t _; rfl
  | succ n ih =>
    intro t h
    have ht : rand t = rand' t := h t (Nat.le_refl t) (by omega)
    unfold randomIDFrom
    rw [ht]
    split
    · rfl
    · exact ih (t + 1) (fun i h1 h2 => h i (by omega) (by omega))

theorem randomIDFrom_all_used (cache : List (ID × FileCache)) (rand : Nat → ID) :
    ∀ fuel t, (∀ i, t ≤ i → i < t + fuel → lookupA cache (rand i) ≠ none) →
      randomIDFrom cache rand t fuel = .error .noUnusedIDFound := by
  intro fuel
  induction fuel with
  | zero => intro t _; rfl
  | succ n ih =>
    intro t h
    have ht : lookupA cache (rand t) ≠ none := h t (Nat.le_refl t) (by omega)
    unfold randomIDFrom
    split
    · rename_i hc
      exact absurd hc ht
    · exact ih (t + 1) (fun i h1 h2 => h i (by omega) (by omega))

theorem put_cases (s : FileStore) (rand : Nat → ID) (now : Int) (content : List Nat) :
    (∃ e, FileStore.Put s rand now content = (.error e, s)) ∨
    (∃ id, s.randomID rand = .ok id ∧ lookupA s.fs (Id.Path id) = none ∧
      FileStore.Put s rand now content =
        (.ok id,
         { cache := insertA s.cache id
             { wgStored := 0, header := genHeader id now content.length,
               path := Id.Path id },
           stats := s.stats.makeSpaceFor content.length,
           fs := insertA s.fs (Id.Path id) content })) := by
  simp only [FileStore.Put]
  split
  · exact .inl ⟨_, rfl⟩
  · split
    · exact .inl ⟨_, rfl⟩
    · rename_i id hid
      split
      · exact .inl ⟨_, rfl⟩
      · rename_i fs' hw
        obtain ⟨hnone, rfl⟩ := writeNewFile_ok _ _ _ _ hw
        exact .inr ⟨id, hid, hnone, rfl⟩

theorem put_ok_inv (s : FileStore) (rand : Nat → ID) (now : Int) (content : List Nat)
    (id : ID) (s' : FileStore) (h : FileStore.Put s rand now content = (.ok id, s')) :
    lookupA s.cache id = none ∧ lookupA s.fs (Id.Path id) = none ∧
    s' = { cache := insertA s.cache id
             { wgStored := 0, header := genHeader id now content.length,
               path := Id.Path id },
           stats := s.stats.makeSpaceFor content.length,
           fs := insertA s.fs (Id.Path id) content } := by
  rcases put_cases s rand now content with ⟨e, he⟩ | ⟨j, hj, hfs', heq⟩
  · rw [he] at h
    simp at h
  · rw [heq] at h
    obtain ⟨h1, h2⟩ := (Prod.mk.injEq _ _ _ _).mp h
    rw [Except.ok.injEq] at h1
    rw [← h1]
    exact ⟨randomID_ok_not_mem s rand j hj, hfs', h2.symm⟩

theorem put_mono (s : FileStore) (rand : Nat → ID) (now : Int) (content : List Nat)
    (x : ID) (h : lookupA s.cache x ≠ none) :
    lookupA (FileStore.Put s rand now content).2.cache x ≠ none := by
  rcases put_cases s rand now content with ⟨e, he⟩ | ⟨id, hid, hfs, heq⟩
  · rw [he]
    exact h
  · rw [heq]
    by_cases hx : x = id
    · subst hx
      simp [lookupA_insertA_self]
    · simpa [lookupA_insertA_ne _ _ _ _ hx] using h

theorem delete_cases (s : FileStore) (id : ID) :
    (lookupA s.cache id = none ∧ FileStore.Delete s id = (.error .pasteNotFound, s)) ∨
    (∃ cached, lookupA s.cache id = some cached ∧
      (FileStore.Delete s id).2.cache = eraseA s.cache id ∧
      (FileStore.Delete s id).2.stats = s.stats.freeSpace cached.header.Size) := by
  simp only [FileStore.Delete]
  split
  · rename_i hc
    exact .inl ⟨hc, rfl⟩
  · rename_i cached hc
    refine .inr ⟨cached, hc, ?_⟩
    split <;> exact ⟨rfl, rfl⟩

/-! ## The store invariants -/

/-- The quota-conservation invariant together with map well-formedness. -/
def StoreInv (s : FileStore) : Prop :=
  NodupKeys s.cache ∧ s.stats.currSize = sumSizes s.cache

theorem storeInv_put (s : FileStore) (rand : Nat → ID) (now : Int) (content : List Nat)
    (h : StoreInv s) : StoreInv (FileStore.Put s rand now content).2 := by
  rcases put_cases s rand now content with ⟨e, he⟩ | ⟨id, hid, hfs, heq⟩
  · rw [he]
    exact h
  · rw [heq]
    have hfresh : lookupA s.cache id = none := randomID_ok_not_mem s rand id hid
    constructor
    · exact nodupKeys_insertA _ _ _ h.1
    · show s.stats.currSize + content.length = sumSizes (insertA s.cache id _)
      rw [show (insertA s.cache id
          { wgStored := 0, header := genHeader id now content.length, path := Id.Path id })
          = (id, { wgStored := 0, header := genHeader id now content.length,
                   path := Id.Path id }) :: s.cache by
        simp [insertA, eraseA_of_lookupA_none s.cache id hfresh]]
      rw [sumSizes_cons, h.2]
      show sumSizes s.cache + content.length = content.length + sumSizes s.cache
      omega

theorem storeInv_delete (s : FileStore) (id : ID) (h : StoreInv s) :
    StoreInv (FileStore.Delete s id).2 := by
  rcases delete_cases s id with ⟨hc, he⟩ | ⟨cached, hc, hcache, hstats⟩
  · rw [he]
    exact h
  · constructor
    · rw [hcache]
      exact nodupKeys_eraseA _ _ h.1
    · rw [hcache, hstats]
      have h1 := sumSizes_eraseA_of_lookupA s.cache id cached h.1 hc
      have h2 := h.2
      show s.stats.currSize - cached.header.Size = sumSizes (eraseA s.cache id)
      omega

theorem storeInv_applyOps (s : FileStore) (ops : List StoreOp) (h : StoreInv s) :
    StoreInv (applyOps s ops) := by
  induction ops generalizing s with
  | nil => exact h
  | cons op rest ih =>
    cases op with
    | put rand now content => exact ih _ (storeInv_put s rand now content h)
    | del id => exact ih _ (storeInv_delete s id h)

/-- Every index entry of a reachable store carries a zero-valued stored wait
group: `Put` (and `Recover`) insert it as the zero value and no operation
ever mutates it in the map — `Get`'s `Add(1)` and `Delete`'s `Wait()` act on
copies.  This is why the model's `Delete` never blocks on the guard. -/
def WgZero (s : FileStore) : Prop :=
  ∀ id c, lookupA s.cache id = some c → c.wgStored = 0

theorem wgZero_put (s : FileStore) (rand : Nat → ID) (now : Int) (content : List Nat)
    (h : WgZero s) : WgZero (FileStore.Put s rand now content).2 := by
  rcases put_cases s rand now content with ⟨e, he⟩ | ⟨id, hid, hfs, heq⟩
  · rw [he]
    exact h
  · rw [heq]
    intro x c hx
    by_cases hxi : x = id
    · subst hxi
      rw [lookupA_insertA_self] at hx
      cases hx
      rfl
    · rw [lookupA_insertA_ne _ _ _ _ hxi] at hx
      exact h x c hx

theorem wgZero_delete (s : FileStore) (id : ID) (h : WgZero s) :
    WgZero (FileStore.Delete s id).2 := by
  rcases delete_cases s id with ⟨hc, he⟩ | ⟨cached, hc, hcache, hstats⟩
  · rw [he]
    exact h
  · intro x c hx
    rw [hcache] at hx
    exact h x c (lookupA_of_lookupA_eraseA _ _ _ _ hx)

theorem wgZero_applyOps (s : FileStore) (ops : List StoreOp) (h : WgZero s) :
    WgZero (applyOps s ops) := by
  induction ops generalizing s with
  | nil => exact h
  | cons op rest ih =>
    cases op with
    | put rand now content => exact ih _ (wgZero_put s rand now content h)
    | del id => exact ih _ (wgZero_delete s id h)

theorem wgStored_always_zero (maxSize : Nat) (ops : List StoreOp) :
    WgZero (applyOps (newFileStore maxSize) ops) := by
  refine wgZero_applyOps _ ops ?_
  intro id c h
  cases h

/-! ## Sequential `Put` calls and the identifiers they return -/

/-- A sequence of sequential `Put` calls, each with its stream of random
draws, its timestamp and its content, collecting every result in order. -/
def runPuts (s : FileStore) : List ((Nat → ID) × Int × List Nat) →
    List (Except Err ID) × FileStore
  | [] => ([], s)
  | (rand, now, content) :: rest =>
    let r := FileStore.Put s rand now content
    let rs := runPuts r.2 rest
    (r.1 :: rs.1, rs.2)

/-- The identifiers of the successful results, in order. -/
def okIds : List (Except Err ID) → List ID
  | [] => []
  | .ok id :: rest => id :: okIds rest
  | .error _ :: rest => okIds rest

theorem put_fst_ok (s : FileStore) (rand : Nat → ID) (now : Int) (content : List Nat)
    (id : ID) (h : (FileStore.Put s rand now content).1 = .ok id) :
    FileStore.Put s rand now content = (.ok id, (FileStore.Put s rand now content).2) := by
  rw [← h]

theorem not_mem_okIds_of_mem_cache (inputs : List ((Nat → ID) × Int × List Nat)) :
    ∀ s x, lookupA s.cache x ≠ none → x ∉ okIds (runPuts s inputs).1 := by
  induction inputs with
  | nil =>
    intro s x _
    simp [runPuts, okIds]
  | cons i rest ih =>
    obtain ⟨rand, now, content⟩ := i
    intro s x h
    simp only [runPuts]
    cases hr : (FileStore.Put s rand now content).1 with
    | error e =>
      show x ∉ okIds (.error e :: (runPuts (FileStore.Put s rand now content).2 rest).1)
      show x ∉ okIds (runPuts (FileStore.Put s rand now content).2 rest).1
      exact ih _ x (put_mono s rand now content x h)
    | ok id =>
      show x ∉ okIds (.ok id :: (runPuts (FileStore.Put s rand now content).2 rest).1)
      show x ∉ id :: okIds (runPuts (FileStore.Put s rand now content).2 rest).1
      intro hmem
      rcases List.mem_cons.mp hmem with hc | hc
      · obtain ⟨hfresh, _, _⟩ :=
          put_ok_inv s rand now content id _ (put_fst_ok s rand now content id hr)
        rw [hc] at h
        exact h hfresh
      · exact ih _ x (put_mono s rand now content x h) hc

theorem nodup_okIds_runPuts (inputs : List ((Nat → ID) × Int × List Nat)) :
    ∀ s, (okIds (runPuts s inputs).1).Nodup := by
  induction inputs with
  | nil =>
    intro s
    simp [runPuts, okIds]
  | cons i rest ih =>
    obtain ⟨rand, now, content⟩ := i
    intro s
    simp only [runPuts]
    cases hr : (FileStore.Put s rand now content).1 with
    | error e =>
      show (okIds (.error e :: (runPuts (FileStore.Put s rand now content).2 rest).1)).Nodup
      show (okIds (runPuts (FileStore.Put s rand now content).2 rest).1).Nodup
      exact ih _
    | ok id =>
      show (okIds (.ok id :: (runPuts (FileStore.Put s rand now content).2 rest).1)).Nodup
      show (id :: okIds (runPuts (FileStore.Put s rand now content).2 rest).1).Nodup
      rw [List.nodup_cons]
      constructor
      · obtain ⟨_, _, hs'⟩ :=
          put_ok_inv s rand now content id _ (put_fst_ok s rand now content id hr)
        refine not_mem_okIds_of_mem_cache rest _ id ?_
        rw [hs']
        simp [lookupA_insertA_self]
      · exact ih _

/-! ## The claims -/

/-- C1: for every byte sequence whose size fits the remaining quota, a
successful `Put` followed by `Get` of the returned identifier yields a
handle that reads back exactly the stored bytes. -/
theorem c1_put_get_round_trip (s : FileStore) (rand : Nat → ID) (now : Int)
    (content : List Nat) (id : ID) (s' : FileStore)
    (_hq : s.stats.hasSpaceFor content.length = true)
    (hput : FileStore.Put s rand now content = (.ok id, s')) :
    ∃ fc hdr, FileStore.Get s' id = .ok (fc, hdr) ∧
      FileContent.readAll s'.fs fc = some content := by
  obtain ⟨hfresh, hfs, hs'⟩ := put_ok_inv s rand now content id s' hput
  subst hs'
  refine ⟨{ path := Id.Path id, readingCopy := 1 },
    genHeader id now content.length, ?_, ?_⟩
  · simp only [FileStore.Get, lookupA_insertA_self]
  · exact lookupA_insertA_self s.fs (Id.Path id) content

/-- Witness for C1: a concrete store, payload and random stream. -/
theorem c1_put_get_round_trip_witness :
    ∃ fc hdr,
      FileStore.Get ((FileStore.Put (newFileStore 100) (fun _ => [0, 0, 0, 0]) 0
          [1, 2, 3]).2) [0, 0, 0, 0] = .ok (fc, hdr) ∧
      FileContent.readAll ((FileStore.Put (newFileStore 100) (fun _ => [0, 0, 0, 0]) 0
          [1, 2, 3]).2).fs fc = some [1, 2, 3] :=
  c1_put_get_round_trip (newFileStore 100) (fun _ => [0, 0, 0, 0]) 0 [1, 2, 3]
    [0, 0, 0, 0] ((FileStore.Put (newFileStore 100) (fun _ => [0, 0, 0, 0]) 0 [1, 2, 3]).2)
    (by decide) rfl

/-- C2: after every sequence of `Put`/`Delete` operations starting from an
empty store — every prefix of a sequence is itself a sequence, and
`applyOps` keeps the post-state of failed operations too — the quota
tracker's running total equals the sum of the sizes of all entries
currently in the index. -/
theorem c2_quota_conservation (maxSize : Nat) (ops : List StoreOp) :
    (applyOps (newFileStore maxSize) ops).stats.currSize
      = sumSizes (applyOps (newFileStore maxSize) ops).cache :=
  (storeInv_applyOps (newFileStore maxSize) ops ⟨List.nodup_nil, rfl⟩).2

/-- C3: with a configured maximum of exactly 100 bytes and zero bytes
stored, `Put` of a 100-byte payload succeeds, while `Put` of a 101-byte
payload fails with `ErrReachedMax` and returns the store — index, quota
total and on-disk state — completely unchanged. -/
theorem c3_capacity_boundary :
    (∃ id, (FileStore.Put (newFileStore 100) (fun _ => [0, 0, 0, 0]) 0
        (List.replicate 100 7)).1 = .ok id)
  ∧ FileStore.Put (newFileStore 100) (fun _ => [0, 0, 0, 0]) 0 (List.replicate 101 7)
      = (.error .reachedMax, newFileStore 100) :=
  ⟨⟨[0, 0, 0, 0], rfl⟩, rfl⟩

/-- C4: `Get` and `Delete` on an identifier absent from the index — one
never issued, or one already deleted — fail with `ErrPasteNotFound` and
leave the store unchanged; and after any `Delete` the identifier is absent
from the index, so later calls keep failing the same way.  Both operations
are total functions of the model, so neither can panic. -/
theorem c4_absent_not_found (s s0 : FileStore) (id : ID)
    (h : lookupA s.cache id = none) :
    FileStore.Get s id = .error .pasteNotFound
  ∧ FileStore.Delete s id = (.error .pasteNotFound, s)
  ∧ lookupA ((FileStore.Delete s0 id).2).cache id = none := by
  refine ⟨?_, ?_, ?_⟩
  · simp only [FileStore.Get, h]
  · simp only [FileStore.Delete, h]
  · rcases delete_cases s0 id with ⟨hc, he⟩ | ⟨cached, hc, hcache, _⟩
    · rw [he]
      exact hc
    · rw [hcache]
      exact lookupA_eraseA_self s0.cache id

/-- Witness for C4: an identifier never issued on a fresh store. -/
theorem c4_absent_not_found_witness :
    FileStore.Get (newFileStore 5) [1, 2, 3, 4] = .error .pasteNotFound
  ∧ FileStore.Delete (newFileStore 5) [1, 2, 3, 4] = (.error .pasteNotFound, newFileStore 5)
  ∧ lookupA ((FileStore.Delete (newFileStore 5) [1, 2, 3, 4]).2).cache [1, 2, 3, 4] = none :=
  c4_absent_not_found (newFileStore 5) (newFileStore 5) [1, 2, 3, 4] rfl

/-- C10: the identifier-to-path mapping is a deterministic pure function
placing each entry two levels deep — the first level is the hex encoding of
the identifier's first byte, the second the hex encoding of the remaining
bytes as the filename — and `IdFromPath` inverts it: decoding the path of
any well-formed identifier yields the identifier back. -/
theorem c10_path_mapping (b0 : Nat) (rest : List Nat) (hv : ValidID (b0 :: rest)) :
    Id.Path (b0 :: rest) = byteToHex b0 ++ sep :: hexEncode rest
  ∧ IdFromPath (Id.Path (b0 :: rest)) = .ok (b0 :: rest) :=
  ⟨rfl, IdFromPath_Path (b0 :: rest) hv⟩

/-- Witness for C10 at the identifier `ab010203`. -/
theorem c10_path_mapping_witness :
    Id.Path [171, 1, 2, 3] = byteToHex 171 ++ sep :: hexEncode [1, 2, 3]
  ∧ IdFromPath (Id.Path [171, 1, 2, 3]) = .ok [171, 1, 2, 3] :=
  c10_path_mapping 171 [1, 2, 3] ⟨rfl, by decide⟩

/-- C5 counterexample: an indexed entry whose backing file is already gone —
the spec's own example of a removal failure.  `FileStore.Delete` returns the
`os.Remove` failure to its caller; the caller does not observe success. -/
theorem c5_counterexample :
    (FileStore.Delete
        { cache := [([0, 0, 0, 0],
            { wgStored := 0, header := { Size := 1, ModTime := 0 },
              path := Id.Path [0, 0, 0, 0] })],
          stats := { maxSize := 100, currSize := 1 },
          fs := [] } [0, 0, 0, 0]).1 = .error .removeFailed
  ∧ (FileStore.Delete
        { cache := [([0, 0, 0, 0],
            { wgStored := 0, header := { Size := 1, ModTime := 0 },
              path := Id.Path [0, 0, 0, 0] })],
          stats := { maxSize := 100, currSize := 1 },
          fs := [] } [0, 0, 0, 0]).1 ≠ .ok () :=
  ⟨rfl, by decide⟩

/-- C5 (amended): when `Delete` is called on an indexed identifier and the
filesystem removal of the backing file fails, the index removal and the
quota release have already completed, but the failure is surfaced to the
caller and `Delete` arms no retry; the hide-and-retry behaviour belongs to
the expiry path `Id.EndLife`, which surfaces nothing, leaves its index
entry in place on failure, and arms a retry after a fixed two-minute
backoff. -/
theorem c5_delete_remove_failure (s : FileStore) (id : ID) (cached : FileCache)
    (pastes : List (ID × PasteInfo)) (fs2 : FS)
    (hc : lookupA s.cache id = some cached)
    (hgone : lookupA s.fs cached.path = none)
    (hgone2 : lookupA fs2 (Id.Path id) = none) :
    FileStore.Delete s id =
      (.error .removeFailed,
       { cache := eraseA s.cache id,
         stats := s.stats.freeSpace cached.header.Size,
         fs := s.fs })
  ∧ Id.EndLife pastes fs2 id = (pastes, fs2, [(id, 2 * timeMinute)]) := by
  constructor
  · simp only [FileStore.Delete, hc, hgone]
  · simp only [Id.EndLife, hgone2]

/-- Witness for C5 (amended): a one-entry store whose backing file is gone. -/
theorem c5_delete_remove_failure_witness :
    FileStore.Delete
        { cache := [([0, 1, 2, 3],
            { wgStored := 0, header := { Size := 4, ModTime := 0 },
              path := Id.Path [0, 1, 2, 3] })],
          stats := { maxSize := 50, currSize := 4 },
          fs := [] } [0, 1, 2, 3] =
      (.error .removeFailed,
       { cache := eraseA [([0, 1, 2, 3],
            { wgStored := 0, header := { Size := 4, ModTime := 0 },
              path := Id.Path [0, 1, 2, 3] })] [0, 1, 2, 3],
         stats := Stats.freeSpace { maxSize := 50, currSize := 4 } 4,
         fs := [] })
  ∧ Id.EndLife [] [] [0, 1, 2, 3] = ([], [], [([0, 1, 2, 3], 2 * timeMinute)]) :=
  c5_delete_remove_failure
    { cache := [([0, 1, 2, 3],
        { wgStored := 0, header := { Size := 4, ModTime := 0 },
          path := Id.Path [0, 1, 2, 3] })],
      stats := { maxSize := 50, currSize := 4 },
      fs := [] } [0, 1, 2, 3]
    { wgStored := 0, header := { Size := 4, ModTime := 0 }, path := Id.Path [0, 1, 2, 3] }
    [] [] rfl rfl rfl

/-- C6: the read/delete guard is broken in the code.  After a `Put` and an
open `Get` handle (the handle's private wait-group counter is 1: one
in-flight reader), the counter `Delete`'s `Wait()` observes is still 0,
because `Get`'s `Add(1)` mutated a copy of the map entry; so `Delete`
proceeds and unlinks the backing file while the handle is still open,
instead of waiting for the entry's read guard to reach zero. -/
theorem c6_read_guard_not_drained :
    (∃ hdr, FileStore.Get ((FileStore.Put (newFileStore 100)
          (fun _ => [0, 0, 0, 0]) 0 [7]).2) [0, 0, 0, 0]
        = .ok ({ path := Id.Path [0, 0, 0, 0], readingCopy := 1 }, hdr))
  ∧ deleteWaitObserved ((FileStore.Put (newFileStore 100)
        (fun _ => [0, 0, 0, 0]) 0 [7]).2) [0, 0, 0, 0] = some 0
  ∧ (FileStore.Delete ((FileStore.Put (newFileStore 100)
        (fun _ => [0, 0, 0, 0]) 0 [7]).2) [0, 0, 0, 0]).1 = .ok ()
  ∧ lookupA ((FileStore.Delete ((FileStore.Put (newFileStore 100)
        (fun _ => [0, 0, 0, 0]) 0 [7]).2) [0, 0, 0, 0]).2).fs
      (Id.Path [0, 0, 0, 0]) = none :=
  ⟨⟨{ Size := 1, ModTime := 0 }, rfl⟩, rfl, rfl, rfl⟩

/-- C7 counterexample: with lifetime 12 and recovery time 100, a file whose
modification time is 101 (death time 113, so not yet dead) is scheduled by
`walkFunc` for 12 — the lifetime cap — although the remaining duration
death minus recovery is 113 - 100 = 13. -/
theorem c7_counterexample :
    (walkFunc (fun _ => []) 12 100 [] [(Id.Path [0, 0, 0, 0], [7])]
        (Id.Path [0, 0, 0, 0]) false 101 none).scheduled = [([0, 0, 0, 0], 12)]
  ∧ ((101 + 12 : Int) - 100 ≠ 12) :=
  ⟨rfl, by decide⟩

/-- C7 (amended): for every file found during recovery, with a positive
configured lifetime: if the file's death time (modification time plus
lifetime) is before the recovery time, the file is deleted and its
identifier stays absent from the rebuilt index; otherwise the entry is
indexed with metadata derived from the file and its deletion is scheduled
for the remaining duration (death time minus recovery time) — except that
`walkFunc` caps the scheduled duration at the configured lifetime, so a
file whose modification time lies after the recovery time is scheduled for
exactly the lifetime; `FileStore.Recover` schedules the uncapped remaining
duration. -/
theorem c7_recovery_fidelity (detect : List Nat → List Char)
    (lifeTime now modTime : Int) (size : Nat) (id : ID)
    (pastes : List (ID × PasteInfo)) (fs : FS) (s : FileStore) (data : List Nat)
    (hlt : 0 < lifeTime) (hid : ValidID id)
    (hfile : lookupA fs (Id.Path id) = some data) (hdata : data ≠ [])
    (hpabsent : lookupA pastes id = none)
    (hsfile : lookupA s.fs (Id.Path id) = some data)
    (hspace : s.stats.hasSpaceFor size = true) :
    (modTime + lifeTime < now →
       walkFunc detect lifeTime now pastes fs (Id.Path id) false modTime none
         = ⟨.ok (), pastes, eraseA fs (Id.Path id), []⟩
     ∧ FileStore.Recover lifeTime now s (Id.Path id) false modTime size none
         = ⟨.ok (), { s with fs := eraseA s.fs (Id.Path id) }, []⟩)
  ∧ (¬ modTime + lifeTime < now →
       walkFunc detect lifeTime now pastes fs (Id.Path id) false modTime none
         = ⟨.ok (),
            insertA pastes id (Id.GenPasteInfo detect id modTime (readBuf512 data)),
            fs,
            [(id, if now + lifeTime < modTime + lifeTime then lifeTime
                  else modTime + lifeTime - now)]⟩
     ∧ FileStore.Recover lifeTime now s (Id.Path id) false modTime size none
         = ⟨.ok (),
            { cache := insertA s.cache id
                { wgStored := 0, header := genHeader id modTime size,
                  path := Id.Path id },
              stats := s.stats.makeSpaceFor size, fs := s.fs },
            [(id, modTime + lifeTime - now)]⟩) := by
  have hdecode := IdFromPath_Path id hid
  have hsplit := splitOnChar_Id_Path id hid
  have hstr := IdFromString_take_drop id hid
  have hlen : data.length ≠ 0 := fun hc => hdata (List.length_eq_zero.mp hc)
  constructor
  · intro hdead
    constructor
    · simp only [walkFunc, Bool.false_eq_true, if_false, hdecode, if_pos hdead,
        Id.EndLife, hfile, eraseA_of_lookupA_none pastes id hpabsent]
    · simp only [FileStore.Recover, Bool.false_eq_true, if_false, hsplit, hstr,
        if_pos (And.intro hlt hdead), hsfile]
  · intro halive
    constructor
    · simp only [walkFunc, Bool.false_eq_true, if_false, hdecode, if_neg halive,
        hfile, hlen, ite_false]
    · have hmax : ¬(0 < lifeTime ∧ modTime + lifeTime < now) := fun hc => halive hc.2
      have hzero : lifeTime ≠ 0 := by omega
      simp only [FileStore.Recover, Bool.false_eq_true, if_false, hsplit, hstr,
        if_neg hmax, hspace, Bool.not_true, SetupPasteDeletion, hzero, ite_false]

/-- Witness for C7 (amended): a concrete recovery of a live file with one
unit of life left (lifetime 12, recovery at 100, modified at 89), applying
the theorem and taking the alive branch. -/
theorem c7_recovery_fidelity_witness :
    walkFunc (fun _ => []) 12 100 [] [(Id.Path [0, 0, 0, 0], [7])]
        (Id.Path [0, 0, 0, 0]) false 89 none
      = ⟨.ok (),
         insertA [] [0, 0, 0, 0]
           (Id.GenPasteInfo (fun _ => []) [0, 0, 0, 0] 89 (readBuf512 [7])),
         [(Id.Path [0, 0, 0, 0], [7])],
         [([0, 0, 0, 0], if (100 : Int) + 12 < 89 + 12 then 12 else 89 + 12 - 100)]⟩ :=
  ((c7_recovery_fidelity (fun _ => []) 12 100 89 1 [0, 0, 0, 0] []
      [(Id.Path [0, 0, 0, 0], [7])]
      { cache := [], stats := { maxSize := 100, currSize := 0 },
        fs := [(Id.Path [0, 0, 0, 0], [7])] } [7]
      (by decide) ⟨rfl, by decide⟩ rfl (by decide) rfl rfl rfl).2 (by decide)).1

/-- C8: when the configured lifetime is zero, `Recover` performs no age
check — the statement holds for every modification time, however far in the
past — deletes nothing, re-indexes the file, and (per the spec's reading of
`SetupPasteDeletion`) arms no deletion, so recovered entries never expire. -/
theorem c8_zero_lifetime_never_expires (startTime modTime : Int) (size : Nat)
    (id : ID) (s : FileStore) (hid : ValidID id)
    (hspace : s.stats.hasSpaceFor size = true) :
    FileStore.Recover 0 startTime s (Id.Path id) false modTime size none
      = ⟨.ok (),
         { cache := insertA s.cache id
             { wgStored := 0, header := genHeader id modTime size, path := Id.Path id },
           stats := s.stats.makeSpaceFor size, fs := s.fs },
         []⟩ := by
  have hsplit := splitOnChar_Id_Path id hid
  have hstr := IdFromString_take_drop id hid
  have hnodead : ¬((0 : Int) < 0 ∧ modTime + 0 < startTime) := fun hc => by omega
  simp only [FileStore.Recover, Bool.false_eq_true, if_false, hsplit, hstr,
    if_neg hnodead, hspace, Bool.not_true, SetupPasteDeletion, ite_true]

/-- Witness for C8: a file whose modification time 0 is long before the
recovery time 1000 is still re-indexed, with nothing scheduled. -/
theorem c8_zero_lifetime_never_expires_witness :
    FileStore.Recover 0 1000 (newFileStore 40) (Id.Path [5, 6, 7, 8]) false 0 3 none
      = ⟨.ok (),
         { cache := insertA [] [5, 6, 7, 8]
             { wgStored := 0, header := genHeader [5, 6, 7, 8] 0 3,
               path := Id.Path [5, 6, 7, 8] },
           stats := Stats.makeSpaceFor { maxSize := 40, currSize := 0 } 3, fs := [] },
         []⟩ :=
  c8_zero_lifetime_never_expires 1000 0 3 [5, 6, 7, 8] (newFileStore 40)
    ⟨rfl, by decide⟩ rfl

/-- C9: identifier generation depends on at most `randTries` draws of the
random stream; a successful generation returns an identifier absent from
the current index; if every one of the first `randTries` draws is in use it
fails with `ErrNoUnusedIDFound`; and consequently the identifiers returned
by the successful calls of any sequence of sequential `Put`s are pairwise
distinct. -/
theorem c9_random_id_generation (s : FileStore) (rand rand' : Nat → ID) (id : ID)
    (s0 : FileStore) (inputs : List ((Nat → ID) × Int × List Nat)) :
    (FileStore.randomID s rand = .ok id → lookupA s.cache id = none)
  ∧ ((∀ i, i < randTries → rand i = rand' i) →
       FileStore.randomID s rand = FileStore.randomID s rand')
  ∧ ((∀ i, i < randTries → lookupA s.cache (rand i) ≠ none) →
       FileStore.randomID s rand = .error .noUnusedIDFound)
  ∧ (okIds (runPuts s0 inputs).1).Nodup := by
  refine ⟨randomID_ok_not_mem s rand id, ?_, ?_, nodup_okIds_runPuts inputs s0⟩
  · intro h
    exact randomIDFrom_congr s.cache rand rand' randTries 0
      (fun i h1 h2 => h i (by omega))
  · intro h
    exact randomIDFrom_all_used s.cache rand randTries 0
      (fun i h1 h2 => h i (by omega))

/-- Witness for C9: a fresh store, a constant stream, two sequential puts. -/
theorem c9_random_id_generation_witness :
    lookupA (newFileStore 9).cache [1, 1, 1, 1] = none
  ∧ (okIds (runPuts (newFileStore 9)
      [(fun _ => [1, 1, 1, 1], 0, [7]), (fun _ => [2, 2, 2, 2], 0, [8])]).1).Nodup :=
  ⟨(c9_random_id_generation (newFileStore 9) (fun _ => [1, 1, 1, 1])
      (fun _ => [1, 1, 1, 1]) [1, 1, 1, 1] (newFileStore 9) []).1 rfl,
   (c9_random_id_generation (newFileStore 9) (fun _ => [1, 1, 1, 1])
      (fun _ => [1, 1, 1, 1]) [1, 1, 1, 1] (newFileStore 9)
      [(fun _ => [1, 1, 1, 1], 0, [7]), (fun _ => [2, 2, 2, 2], 0, [8])]).2.2.2⟩

end Pastecat
